import Mathlib

/-!
Verification of the python-dag repository: an in-memory DAG engine
(`dag/__init__.py`) with generation-based topological sorting, subgraph
filtering, cycle detection and reporting, plus a sqlite-backed variant
(`dag/sqlite.py`).

Node identifiers are modelled as `ℕ`; an edge is a `(source, sink)` pair;
a graph (a Python set of edges) is a `Finset (ℕ × ℕ)`.  Python's
unbounded `while` loops are modelled with explicit fuel; terminating
loops get a fuel bound (number of edges plus one) proved sufficient.
-/

abbrev Edge := ℕ × ℕ

/-- Sources of a graph: `{source for source, _ in graph}`. -/
def srcs (g : Finset Edge) : Finset ℕ := g.image Prod.fst

/-- Sinks of a graph: `{sink for _, sink in graph}`. -/
def snks (g : Finset Edge) : Finset ℕ := g.image Prod.snd

/-- The nodes of a graph: every identifier occurring as a source or a sink. -/
def nodesOf (g : Finset Edge) : Finset ℕ := srcs g ∪ snks g

/-- Initial ready set of `TopologicalSorter.__iter__`: sources that are not
sinks of any current edge. -/
def initialReady (g : Finset Edge) : Finset ℕ :=
  (srcs g).filter (fun s => s ∉ snks g)

/-- One iteration of the forward sort loop body: remove all outgoing edges of
`ready` nodes, then collect sinks of the removed edges that have no remaining
incoming edge.  Returns the reduced graph and the next ready set. -/
def stepFwd (g : Finset Edge) (ready : Finset ℕ) : Finset Edge × Finset ℕ :=
  let outgoing := g.filter (fun e => e.1 ∈ ready)
  let g2 := g \ outgoing
  (g2, (outgoing.image Prod.snd).filter (fun x => x ∉ snks g2))

/-- Fuelled forward sort loop (`TopologicalSorter.__iter__`): while the ready
set is non-empty, yield it and step.  Returns the yielded generations and the
residual edge set (the `CycleError` payload when non-empty). -/
def sortAux : ℕ → Finset Edge → Finset ℕ → List (Finset ℕ) × Finset Edge
  | 0, g, _ => ([], g)
  | fuel + 1, g, ready =>
    if ready = ∅ then ([], g)
    else
      let p := stepFwd g ready
      let q := sortAux fuel p.1 p.2
      (ready :: q.1, q.2)

/-- Complete forward sort of a graph; each productive loop iteration removes at
least one edge, so `g.card + 1` fuel always reaches the loop's exit. -/
def topsortRun (g : Finset Edge) : List (Finset ℕ) × Finset Edge :=
  sortAux (g.card + 1) g (initialReady g)

/-- Initial ready set of `TopologicalSorter.__reversed__`: sinks that are not
sources of any current edge. -/
def initialReadyRev (g : Finset Edge) : Finset ℕ :=
  (snks g).filter (fun x => x ∉ srcs g)

/-- One iteration of the reverse sort loop body (mirror of `stepFwd`). -/
def stepRev (g : Finset Edge) (ready : Finset ℕ) : Finset Edge × Finset ℕ :=
  let incoming := g.filter (fun e => e.2 ∈ ready)
  let g2 := g \ incoming
  (g2, (incoming.image Prod.fst).filter (fun x => x ∉ srcs g2))

/-- Fuelled reverse sort loop (`TopologicalSorter.__reversed__`). -/
def sortAuxRev : ℕ → Finset Edge → Finset ℕ → List (Finset ℕ) × Finset Edge
  | 0, g, _ => ([], g)
  | fuel + 1, g, ready =>
    if ready = ∅ then ([], g)
    else
      let p := stepRev g ready
      let q := sortAuxRev fuel p.1 p.2
      (ready :: q.1, q.2)

/-- Complete reverse sort of a graph. -/
def revsortRun (g : Finset Edge) : List (Finset ℕ) × Finset Edge :=
  sortAuxRev (g.card + 1) g (initialReadyRev g)

/-- Index of the generation containing `x` (length of the list if none does). -/
def genIdx (gens : List (Finset ℕ)) (x : ℕ) : ℕ :=
  gens.findIdx (fun s => decide (x ∈ s))

/-- The edge relation of a graph. -/
def edgeRel (g : Finset Edge) (a b : ℕ) : Prop := (a, b) ∈ g

/-- A graph contains a cycle: a closed non-trivial walk, i.e. a chain of edges
from some node `a` whose last node is `a` again. -/
def HasCycle (g : Finset Edge) : Prop :=
  ∃ a l, l ≠ [] ∧ List.Chain (edgeRel g) a l ∧ l.getLast? = some a

/-- Reachability along edges (reflexive-transitive closure of `edgeRel`). -/
def Reaches (g : Finset Edge) (a b : ℕ) : Prop :=
  Relation.ReflTransGen (edgeRel g) a b

/-- A predecessor of `s` in `g`: the least source of an edge into `s`
(0 if `s` has no incoming edge).  Used only to exhibit cycles. -/
def predNode (g : Finset Edge) (s : ℕ) : ℕ :=
  if h : ((g.filter (fun e => e.2 = s)).image Prod.fst).Nonempty
  then ((g.filter (fun e => e.2 = s)).image Prod.fst).min' h else 0

/-- The backward walk `[p^[d-1] x, ..., p x, x]` of length `d`. -/
def descList (p : ℕ → ℕ) (x : ℕ) : ℕ → List ℕ
  | 0 => []
  | d + 1 => p^[d] x :: descList p x d

/-- Lexicographic order on edges, as Python compares `(source, sink)` tuples. -/
def edgeLE (a b : Edge) : Prop := a.1 < b.1 ∨ (a.1 = b.1 ∧ a.2 ≤ b.2)

instance : DecidableRel edgeLE := fun a b =>
  inferInstanceAs (Decidable (a.1 < b.1 ∨ (a.1 = b.1 ∧ a.2 ≤ b.2)))

instance : IsTrans Edge edgeLE := by
  constructor; intro a b c hab hbc; unfold edgeLE at *; omega

instance : IsAntisymm Edge edgeLE := by
  constructor
  rintro ⟨a1, a2⟩ ⟨b1, b2⟩ hab hba
  unfold edgeLE at *; simp only [Prod.mk.injEq]; omega

instance : IsTotal Edge edgeLE := by
  constructor; intro a b; unfold edgeLE; omega

/-- The residual edges in ascending tuple order: `sorted(self.members)`. -/
def sortedEdges (m : Finset Edge) : List Edge := m.sort edgeLE

/-- Lookup in `dict(sorted(self.members))`: the sink of the last edge with
source `s` in sorted order (the later pair wins when building a dict),
`none` when `s` has no outgoing edge (Python `KeyError`). -/
def dictLookup (m : Finset Edge) (s : ℕ) : Option ℕ :=
  (((sortedEdges m).filter (fun e => decide (e.1 = s))).getLast?).map Prod.snd

/-- The `while node != first` walk of `CycleError.__str__`, with explicit
fuel (the Python loop is unbounded); `none` means the loop has not reached
`first` within `fuel` steps, or hit a missing key. -/
def walkAux (f : ℕ → Option ℕ) (first : ℕ) : ℕ → ℕ → Option (List ℕ)
  | 0, _ => none
  | fuel + 1, node =>
    if node = first then some []
    else
      match f node with
      | none => none
      | some nxt => Option.map (fun l => node :: l) (walkAux f first fuel nxt)

/-- The node sequence formatted by `CycleError.__str__`: start at the least
source (`sorted(nodes)[0]`), then follow `dict(sorted(members))` until the
start node recurs.  Fuelled; `none` when the walk does not terminate within
`fuel` steps (or on an empty residual set / missing key). -/
def cycleSeq (m : Finset Edge) (fuel : ℕ) : Option (List ℕ) :=
  Option.bind ((m.image Prod.fst).sort (· ≤ ·)).head? (fun first =>
    Option.bind (dictLookup m first) (fun n1 =>
      Option.map (fun l => first :: l) (walkAux (dictLookup m) first fuel n1)))

/-- The successor choice described by the spec: the sink of the last edge in
sorted edge order among the outgoing residual edges of `s`, i.e. the largest
such sink; `none` if `s` has no outgoing residual edge. -/
def specSuccessor (m : Finset Edge) (s : ℕ) : Option ℕ :=
  if h : ((m.filter (fun e => e.1 = s)).image Prod.snd).Nonempty
  then some (((m.filter (fun e => e.1 = s)).image Prod.snd).max' h)
  else none

/-- The cycle report determined purely by the residual edge set: start at the
minimum residual source node and repeatedly take the maximum-sink successor. -/
def cycleSeqSpec (m : Finset Edge) (fuel : ℕ) : Option (List ℕ) :=
  if h : (m.image Prod.fst).Nonempty then
    Option.bind (specSuccessor m ((m.image Prod.fst).min' h)) (fun n1 =>
      Option.map (fun l => ((m.image Prod.fst).min' h) :: l)
        (walkAux (specSuccessor m) ((m.image Prod.fst).min' h) fuel n1))
  else none

/-- One round of the forward-closure loop in `TopologicalSorter.__init__`:
add the sinks of all edges whose source is already relevant. -/
def closureStepF (E : Finset Edge) (R : Finset ℕ) : Finset ℕ :=
  R ∪ (E.filter (fun e => e.1 ∈ R)).image Prod.snd

/-- The fixpoint relevant set of the start filter: iterating the closure step
stabilises after at most one step per distinct sink. -/
def fwdClosure (E : Finset Edge) (s : Finset ℕ) : Finset ℕ :=
  (closureStepF E)^[(snks E).card + 1] s

/-- One round of the backward-closure loop in `TopologicalSorter.__init__`. -/
def closureStepB (E : Finset Edge) (R : Finset ℕ) : Finset ℕ :=
  R ∪ (E.filter (fun e => e.2 ∈ R)).image Prod.fst

/-- The fixpoint relevant set of the endpoint filter. -/
def bwdClosure (E : Finset Edge) (t : Finset ℕ) : Finset ℕ :=
  (closureStepB E)^[(srcs E).card + 1] t

/-- The start filter: keep edges whose source is forward-reachable from a
start node (`{edge for edge in edges if edge[0] in relevant}`). -/
def filterStart (E : Finset Edge) (s : Finset ℕ) : Finset Edge :=
  E.filter (fun e => e.1 ∈ fwdClosure E s)

/-- The endpoint filter: keep edges whose sink backward-reaches an endpoint. -/
def filterEnd (E : Finset Edge) (t : Finset ℕ) : Finset Edge :=
  E.filter (fun e => e.2 ∈ bwdClosure E t)

/-- The filtering done by `TopologicalSorter.__init__`: the start filter when
`start` is non-empty, then the endpoint filter (over the already filtered
edges) when `endpoints` is non-empty. -/
def applyFilters (E : Finset Edge) (s t : Finset ℕ) : Finset Edge :=
  let E1 := if s = ∅ then E else filterStart E s
  if t = ∅ then E1 else filterEnd E1 t

/-- A sorter paired with the caller's stored edge set: `(dag, graph, ready)`
where `graph` is the sorter's private working copy (`self.graph = set(edges)`
after filtering) and `dag` the caller's graph, which no sorter step touches. -/
def initSorter (dag : Finset Edge) (s t : Finset ℕ) :
    Finset Edge × Finset Edge × Finset ℕ :=
  (dag, applyFilters dag s t, initialReady (applyFilters dag s t))

/-- Reverse-iteration sorter state over the caller's stored edge set. -/
def initSorterRev (dag : Finset Edge) (s t : Finset ℕ) :
    Finset Edge × Finset Edge × Finset ℕ :=
  (dag, applyFilters dag s t, initialReadyRev (applyFilters dag s t))

/-- One forward iteration step on the combined state: mutates only the
working copy and ready set, never the caller's graph. -/
def fwdStepState (st : Finset Edge × Finset Edge × Finset ℕ) :
    Finset Edge × Finset Edge × Finset ℕ :=
  (st.1, (stepFwd st.2.1 st.2.2).1, (stepFwd st.2.1 st.2.2).2)

/-- One reverse iteration step on the combined state. -/
def revStepState (st : Finset Edge × Finset Edge × Finset ℕ) :
    Finset Edge × Finset Edge × Finset ℕ :=
  (st.1, (stepRev st.2.1 st.2.2).1, (stepRev st.2.1 st.2.2).2)

/-- Python `set.discard` / the spec's `remove`: drop the edge if present. -/
def pyDiscard (g : Finset Edge) (e : Edge) : Finset Edge := g.erase e

/-- `SqliteDAG.discard`: `DELETE FROM {table} WHERE {source}=? AND {sink}=?`
on the stored relation. -/
def sqlDiscard (rel : Finset Edge) (e : Edge) : Finset Edge :=
  rel.filter (fun r => ¬(r.1 = e.1 ∧ r.2 = e.2))

/-- The rows found by the `SELECT 1 ... WHERE {source}=? AND {sink}=?` query
that `SqliteDAG.__contains__` executes: non-empty exactly when the edge is
stored. -/
def containsQuery (rel : Finset Edge) (e : Edge) : Bool := decide (e ∈ rel)

/-- The value `SqliteDAG.__contains__` actually produces: the method assigns
the query cursor to `rows` but has no return statement, so it returns `None`,
which the `in` operator coerces to `False` for every input. -/
def sqliteContains (_rel : Finset Edge) (_e : Edge) : Bool := false

/-- Ready set of one round of `SqliteDAG.topsort`: distinct sources of
`WORKING_DAG` (real rows and fake leaf rows) that are not sinks of any
remaining real (leaf = 0) row. -/
def sqlReady (g : Finset Edge) (fakes : Finset ℕ) : Finset ℕ :=
  ((g.image Prod.fst) ∪ fakes).filter (fun s => s ∉ g.image Prod.snd)

/-- Fuelled loop of `SqliteDAG.topsort`: `g` holds the real rows of
`WORKING_DAG`, `fakes` the sources of the fake leaf rows; the `DELETE` keeps
exactly the rows whose source is a sink of a pre-state real row. -/
def sqlSortAux : ℕ → Finset Edge → Finset ℕ → List (Finset ℕ) × Finset Edge
  | 0, g, _ => ([], g)
  | fuel + 1, g, fakes =>
    let ready := sqlReady g fakes
    if ready = ∅ then ([], g)
    else
      let sinks0 := g.image Prod.snd
      let g2 := g.filter (fun e => e.1 ∈ sinks0)
      let fakes2 := fakes.filter (fun x => x ∈ sinks0)
      let q := sqlSortAux fuel g2 fakes2
      (ready :: q.1, q.2)

/-- `SqliteDAG.topsort` given the stored relation and the relation the
fake-edge `INSERT ... SELECT DISTINCT {sink}, 1 FROM DAG` actually reads. -/
def sqlTopsort (rel fakeSourceRel : Finset Edge) : List (Finset ℕ) × Finset Edge :=
  sqlSortAux (rel.card + 2) rel (fakeSourceRel.image Prod.snd)

/-- `SqliteDAG.topsort` against a database mapping table names to relations.
The working copy is filled from `self.table`, but the fake-edge insert reads
from the hard-coded table name `DAG`; a missing table is a sqlite error
(`none`), raised before any generation is produced. -/
def dbTopsort (db : String → Option (Finset Edge)) (table : String) :
    Option (List (Finset ℕ) × Finset Edge) :=
  match db table with
  | none => none
  | some rel =>
    match db "DAG" with
    | none => none
    | some dagRel => some (sqlTopsort rel dagRel)

/-- The chain graph `(c 0, c 1), (c 1, c 2), ..., (c (k-1), c k)`. -/
def chainE (c : ℕ → ℕ) (k : ℕ) : Finset Edge :=
  (Finset.range k).image (fun j => (c j, c (j + 1)))

/-- A residual edge set on which the cycle reporter's walk never returns to
its start node: from node 0 the chosen successor is 2 (the larger sink of
the two edges out of 0), and 2's chosen successor is 2 itself forever. -/
def cexResidual : Finset Edge := {(0, 1), (1, 0), (0, 2), (2, 2)}

/-! ## Helper lemmas for evaluating sorted lists of concrete finsets -/

/-- A sorted list with the same multiset of elements as `m` is `m`'s sorted
edge list. -/
theorem sortedEdges_eq {m : Finset Edge} {l : List Edge} (hs : List.Sorted edgeLE l)
    (hm : (l : Multiset Edge) = m.val) : sortedEdges m = l := by
  apply List.eq_of_perm_of_sorted _ (Finset.sort_sorted edgeLE m) hs
  apply Multiset.coe_eq_coe.mp
  rw [Finset.sort_eq, hm]

/-- A sorted list with the same multiset of elements as `s` is `s`'s sorted
node list. -/
theorem sortNat_eq {s : Finset ℕ} {l : List ℕ} (hs : List.Sorted (fun a b => a ≤ b) l)
    (hm : (l : Multiset ℕ) = s.val) : s.sort (· ≤ ·) = l := by
  apply List.eq_of_perm_of_sorted _ (Finset.sort_sorted _ s) hs
  apply Multiset.coe_eq_coe.mp
  rw [Finset.sort_eq, hm]

/-! ## C4: removing an absent edge is a no-op -/

/-- C4: for every graph `G` and edge `e ∉ G`, removal (`set.discard` on the
in-memory `DAG`, the `DELETE` of `SqliteDAG.discard` on the stored relation)
leaves `G` unchanged; both operations are total functions, so no error is
raised. -/
theorem discard_absent_noop (G : Finset Edge) (e : Edge) (h : e ∉ G) :
    pyDiscard G e = G ∧ sqlDiscard G e = G := by
  constructor
  · exact Finset.erase_eq_of_not_mem h
  · apply Finset.filter_true_of_mem
    intro r hr hc
    exact h (by rwa [Prod.ext_iff.mpr ⟨hc.1, hc.2⟩] at hr)

/-- Witness for C4 at the concrete graph `{(0,1)}` and absent edge `(1,2)`. -/
theorem discard_absent_noop_witness :
    ((1, 2) ∉ ({(0, 1)} : Finset Edge)) ∧
      (pyDiscard {(0, 1)} (1, 2) = {(0, 1)} ∧ sqlDiscard {(0, 1)} (1, 2) = {(0, 1)}) :=
  ⟨by decide, discard_absent_noop _ _ (by decide)⟩

/-! ## C9: `SqliteDAG.__contains__` never returns True -/

/-- C9 is a code bug: the `SELECT` executed by `SqliteDAG.__contains__` does
find the stored edge `(0,1)` (the query result is non-empty), but the method
lacks a return statement, so the membership test evaluates to `False` even
though the edge is present. -/
theorem sqlite_contains_always_false :
    containsQuery {(0, 1)} (0, 1) = true ∧ sqliteContains {(0, 1)} (0, 1) = false := by
  decide

/-! ## C8: `SqliteDAG.topsort` only works when the table is named `DAG` -/

/-- C8 is a code bug: over a table named `EDGES` holding the single edge
`(0,1)`, the in-memory forward sort yields the generations `{0}`, `{1}` and
completes, but `SqliteDAG.topsort` fails with a sqlite error before yielding
anything: its fake-edge insert reads from the hard-coded table name `DAG`,
which does not exist. -/
theorem sqlite_topsort_hardcoded_table :
    dbTopsort (fun t => if t = "EDGES" then some {(0, 1)} else none) "EDGES" = none ∧
      topsortRun {(0, 1)} = ([{0}, {1}], ∅) := by
  constructor
  · rfl
  · decide

/-! ## C3: the cycle reporter's walk need not terminate -/

/-- C3 is a code bug: `cexResidual` is a residual edge set actually produced
by the forward sort (the sort peels nothing and raises `CycleError` with
exactly these members), every one of its nodes has both an incoming and an
outgoing residual edge, yet the reporter's walk never terminates: starting
from the minimum source 0 it moves to 2 (the chosen successor of 0) and then
loops on the self-edge at 2 forever, never returning to 0 — for every fuel
bound the fuelled walk is still unfinished, contradicting the spec's
guarantee of termination within the number of distinct nodes. -/
theorem cycle_reporter_diverges :
    (topsortRun cexResidual).2 = cexResidual ∧
      srcs cexResidual = nodesOf cexResidual ∧
      snks cexResidual = nodesOf cexResidual ∧
      ∀ fuel, cycleSeq cexResidual fuel = none := by
  refine ⟨by decide, by decide, by decide, ?_⟩
  have hse : sortedEdges cexResidual = [(0, 1), (0, 2), (1, 0), (2, 2)] :=
    sortedEdges_eq (by decide) (by decide)
  have hd2 : dictLookup cexResidual 2 = some 2 := by rw [dictLookup, hse]; rfl
  have hd0 : dictLookup cexResidual 0 = some 2 := by rw [dictLookup, hse]; rfl
  have hw : ∀ fuel, walkAux (dictLookup cexResidual) 0 fuel 2 = none := by
    intro fuel
    induction fuel with
    | zero => rfl
    | succ n ih => simp [walkAux, hd2, ih]
  intro fuel
  have hh : ((cexResidual.image Prod.fst).sort (· ≤ ·)).head? = some 0 := by
    have h3 : (cexResidual.image Prod.fst).sort (· ≤ ·) = [0, 1, 2] :=
      sortNat_eq (by decide) (by decide)
    rw [h3]; rfl
  simp [cycleSeq, hh, hd0, hw fuel]

/-! ## C7: sorting never mutates the caller's graph -/

/-- C7: for every stored graph, any number of forward or reverse sorter steps
(completed, stuck on a cycle, or abandoned part-way) leaves the caller's
edge set untouched — the sorter works on a private copy — and a second sort
started afterwards over the same graph sees exactly the state a fresh sort
would see. -/
theorem sorter_preserves_callers_graph (dag : Finset Edge) (s t : Finset ℕ) (n : ℕ) :
    (fwdStepState^[n] (initSorter dag s t)).1 = dag ∧
      (revStepState^[n] (initSorterRev dag s t)).1 = dag ∧
      initSorter ((fwdStepState^[n] (initSorter dag s t)).1) s t = initSorter dag s t := by
  have hf : ∀ (st : Finset Edge × Finset Edge × Finset ℕ) (m : ℕ),
      (fwdStepState^[m] st).1 = st.1 := by
    intro st m
    induction m with
    | zero => rfl
    | succ k ih => rw [Function.iterate_succ_apply']; exact ih
  have hr : ∀ (st : Finset Edge × Finset Edge × Finset ℕ) (m : ℕ),
      (revStepState^[m] st).1 = st.1 := by
    intro st m
    induction m with
    | zero => rfl
    | succ k ih => rw [Function.iterate_succ_apply']; exact ih
  exact ⟨hf _ _, hr _ _, by rw [hf]; exact rfl⟩

/-! ## C10: the cycle report is a deterministic function of the residual set -/

/-- In a pairwise-`R` list, every element is the last element or `R`-below it. -/
theorem pairwise_getLast_rel {α : Type} {R : α → α → Prop} :
    ∀ {l : List α}, l.Pairwise R → ∀ {z}, l.getLast? = some z →
      ∀ {x}, x ∈ l → x = z ∨ R x z := by
  intro l
  induction l with
  | nil => intro _ z hz; simp at hz
  | cons a t ih =>
    intro hp z hz x hx
    cases t with
    | nil =>
      simp at hz hx
      subst hz; subst hx; left; rfl
    | cons b t2 =>
      rw [List.getLast?_cons_cons] at hz
      rcases List.mem_cons.mp hx with rfl | hx2
      · right
        exact (List.pairwise_cons.mp hp).1 z (List.mem_of_getLast?_eq_some hz)
      · exact ih (List.pairwise_cons.mp hp).2 hz hx2

/-- The successor actually chosen by `dict(sorted(members))` is the one the
spec describes: the sink of the last outgoing edge in sorted order, i.e. the
largest sink among the outgoing residual edges. -/
theorem dictLookup_eq_specSuccessor (m : Finset Edge) (s : ℕ) :
    dictLookup m s = specSuccessor m s := by
  have hpl : ((sortedEdges m).filter (fun e => decide (e.1 = s))).Pairwise edgeLE :=
    (Finset.sort_sorted edgeLE m).filter _
  have hmem : ∀ e : Edge,
      e ∈ (sortedEdges m).filter (fun e => decide (e.1 = s)) ↔ e ∈ m ∧ e.1 = s := by
    intro e
    simp [List.mem_filter, sortedEdges, Finset.mem_sort]
  unfold dictLookup specSuccessor
  cases hgl : ((sortedEdges m).filter (fun e => decide (e.1 = s))).getLast? with
  | none =>
    rw [List.getLast?_eq_none_iff] at hgl
    have houts : ¬((m.filter (fun e => e.1 = s)).image Prod.snd).Nonempty := by
      rintro ⟨y, hy⟩
      rcases Finset.mem_image.mp hy with ⟨e, he, hey⟩
      rcases Finset.mem_filter.mp he with ⟨hem, hes⟩
      have hin : e ∈ (sortedEdges m).filter (fun e => decide (e.1 = s)) :=
        (hmem e).mpr ⟨hem, hes⟩
      rw [hgl] at hin
      exact absurd hin (List.not_mem_nil e)
    rw [dif_neg houts]
    rfl
  | some e =>
    have hel := List.mem_of_getLast?_eq_some hgl
    rcases (hmem e).mp hel with ⟨hem, hes⟩
    have hey : e.2 ∈ (m.filter (fun e => e.1 = s)).image Prod.snd :=
      Finset.mem_image.mpr ⟨e, Finset.mem_filter.mpr ⟨hem, hes⟩, rfl⟩
    have hne : ((m.filter (fun e => e.1 = s)).image Prod.snd).Nonempty := ⟨e.2, hey⟩
    have hub : ∀ y ∈ (m.filter (fun e => e.1 = s)).image Prod.snd, y ≤ e.2 := by
      intro y hy
      rcases Finset.mem_image.mp hy with ⟨e2, he2, hey2⟩
      rcases Finset.mem_filter.mp he2 with ⟨he2m, he2s⟩
      have he2l : e2 ∈ (sortedEdges m).filter (fun e => decide (e.1 = s)) :=
        (hmem e2).mpr ⟨he2m, he2s⟩
      rcases pairwise_getLast_rel hpl hgl he2l with heq | hle
      · rw [← hey2, heq]
      · rcases hle with h1 | ⟨_, h2⟩
        · rw [hes, he2s] at h1
          exact absurd h1 (lt_irrefl s)
        · rw [← hey2]; exact h2
    rw [dif_pos hne]
    have : e.2 = ((m.filter (fun e => e.1 = s)).image Prod.snd).max' hne :=
      le_antisymm (Finset.le_max' _ _ hey) (Finset.max'_le _ hne _ hub)
    simp [this]

/-- The head of the ascending sorted list of a non-empty finset is its
minimum. -/
theorem head_sort_eq_min {s : Finset ℕ} (h : s.Nonempty) :
    (s.sort (· ≤ ·)).head? = some (s.min' h) := by
  cases hl : s.sort (· ≤ ·) with
  | nil =>
    exfalso
    have hlen : (s.sort (· ≤ ·)).length = s.card := Finset.length_sort _
    rw [hl] at hlen
    simp at hlen
    have hcard : 0 < s.card := Finset.card_pos.mpr h
    omega
  | cons a t =>
    have hsorted : List.Sorted (· ≤ ·) (a :: t) := hl ▸ Finset.sort_sorted _ s
    have hamem : a ∈ s := by
      have : a ∈ s.sort (· ≤ ·) := by rw [hl]; exact List.mem_cons_self a t
      rwa [Finset.mem_sort] at this
    have hmin : s.min' h ∈ s.sort (· ≤ ·) := (Finset.mem_sort _).mpr (s.min'_mem h)
    rw [hl] at hmin
    have hle : a ≤ s.min' h := by
      rcases List.mem_cons.mp hmin with rfl | hmem
      · exact le_refl _
      · exact List.rel_of_sorted_cons hsorted _ hmem
    simp [le_antisymm hle (s.min'_le a hamem)]

/-- C10: the node sequence produced by `CycleError.__str__` is a
deterministic function of the residual edge set alone: it equals the walk
that starts at the minimum residual source node and always follows the
spec-described successor (the sink of the last outgoing edge in sorted edge
order, i.e. the largest residual sink of that source), for every residual
set and every fuel bound, so two evaluations on the same residual set yield
the identical sequence. -/
theorem cycle_report_deterministic (m : Finset Edge) (fuel : ℕ) :
    cycleSeq m fuel = cycleSeqSpec m fuel := by
  have hfun : dictLookup m = specSuccessor m := funext (dictLookup_eq_specSuccessor m)
  by_cases h : (m.image Prod.fst).Nonempty
  · unfold cycleSeq cycleSeqSpec
    rw [head_sort_eq_min h, dif_pos h, hfun]
    rfl
  · have he : m.image Prod.fst = ∅ := Finset.not_nonempty_iff_eq_empty.mp h
    unfold cycleSeq cycleSeqSpec
    rw [dif_neg h, he, Finset.sort_empty]
    rfl

/-! ## C2: sorting a cyclic edge set -/

/-- A cycle in a subgraph is a cycle in the supergraph. -/
theorem hasCycle_mono {g h : Finset Edge} (hsub : g ⊆ h) : HasCycle g → HasCycle h := by
  rintro ⟨a, l, hne, hch, hl⟩
  exact ⟨a, l, hne, hch.imp (fun x y hxy => hsub hxy), hl⟩

/-- Every node visited by a chain of edges is a sink of the graph. -/
theorem chain_mem_snk {g : Finset Edge} :
    ∀ {a l}, List.Chain (edgeRel g) a l → ∀ {x}, x ∈ l → x ∈ snks g := by
  intro a l
  induction l generalizing a with
  | nil => intro _ x hx; simp at hx
  | cons b t ih =>
    intro hch x hx
    rcases List.chain_cons.mp hch with ⟨hab, hbt⟩
    rcases List.mem_cons.mp hx with rfl | hxt
    · exact Finset.mem_image.mpr ⟨(a, x), hab, rfl⟩
    · exact ih hbt hxt

/-- A chain whose nodes all avoid `ready` survives the removal of the
outgoing edges of `ready` nodes. -/
theorem chain_in_sdiff {g : Finset Edge} {ready : Finset ℕ} :
    ∀ {a l}, List.Chain (edgeRel g) a l → a ∉ ready → (∀ x ∈ l, x ∉ ready) →
      List.Chain (edgeRel (g \ g.filter (fun e => e.1 ∈ ready))) a l := by
  intro a l
  induction l generalizing a with
  | nil => intro _ _ _; exact List.Chain.nil
  | cons b t ih =>
    intro hch ha hl
    rcases List.chain_cons.mp hch with ⟨hab, hbt⟩
    refine List.chain_cons.mpr
      ⟨?_, ih hbt (hl b (List.mem_cons_self b t)) (fun x hx => hl x (List.mem_cons_of_mem b hx))⟩
    refine Finset.mem_sdiff.mpr ⟨hab, ?_⟩
    intro hmem
    exact ha (Finset.mem_filter.mp hmem).2

/-- One forward step never destroys a cycle: the nodes on a cycle all have an
incoming edge, hence are never ready, hence none of the cycle's edges is an
outgoing edge of a ready node. -/
theorem stepFwd_preserves_cycle {g : Finset Edge} {ready : Finset ℕ}
    (hinv : ∀ x ∈ ready, x ∉ snks g) (hc : HasCycle g) :
    HasCycle (stepFwd g ready).1 := by
  rcases hc with ⟨a, l, hne, hch, hl⟩
  have hls : ∀ x ∈ l, x ∈ snks g := fun x hx => chain_mem_snk hch hx
  have hans : a ∈ snks g := hls a (List.mem_of_getLast?_eq_some hl)
  have hna : a ∉ ready := fun hr => hinv a hr hans
  have hnl : ∀ x ∈ l, x ∉ ready := fun x hx hr => hinv x hr (hls x hx)
  exact ⟨a, l, hne, chain_in_sdiff hch hna hnl, hl⟩

/-- The residual edge set of a sort over a cyclic graph still has a cycle. -/
theorem sortAux_residual_cycle :
    ∀ (fuel : ℕ) (g : Finset Edge) (ready : Finset ℕ),
      (∀ x ∈ ready, x ∉ snks g) → HasCycle g → HasCycle (sortAux fuel g ready).2 := by
  intro fuel
  induction fuel with
  | zero => intro g ready _ hc; exact hc
  | succ n ih =>
    intro g ready hinv hc
    by_cases hr : ready = ∅
    · simp only [sortAux, if_pos hr]; exact hc
    · simp only [sortAux, if_neg hr]
      refine ih _ _ ?_ (stepFwd_preserves_cycle hinv hc)
      intro x hx
      exact (Finset.mem_filter.mp hx).2

/-- A cyclic graph is non-empty. -/
theorem hasCycle_nonempty {g : Finset Edge} (hc : HasCycle g) : g ≠ ∅ := by
  rcases hc with ⟨a, l, hne, hch, _⟩
  cases l with
  | nil => exact absurd rfl hne
  | cons b t =>
    rcases List.chain_cons.mp hch with ⟨hab, _⟩
    intro hmpty
    rw [hmpty] at hab
    exact absurd hab (Finset.not_mem_empty _)

/-- A finished walk of length zero means the walk began at `first`. -/
theorem walkAux_some_nil {f : ℕ → Option ℕ} {first : ℕ} {fuel node : ℕ}
    (h : walkAux f first fuel node = some []) : node = first := by
  cases fuel with
  | zero => simp [walkAux] at h
  | succ n =>
    by_cases hn : node = first
    · exact hn
    · simp only [walkAux, if_neg hn] at h
      cases hf : f node with
      | none => rw [hf] at h; simp at h
      | some nxt =>
        rw [hf] at h
        simp [Option.map_eq_some'] at h

/-- Structure of a finished walk: it lists the nodes visited after `node`,
consecutive nodes are successor steps, and its last node steps to `first`. -/
theorem walkAux_spec {f : ℕ → Option ℕ} {first : ℕ} :
    ∀ {fuel node l}, walkAux f first fuel node = some l →
      l = [] ∨
        (l.head? = some node ∧ l.Chain' (fun a b => f a = some b) ∧
          ∃ z, l.getLast? = some z ∧ f z = some first) := by
  intro fuel
  induction fuel with
  | zero => intro node l h; simp [walkAux] at h
  | succ n ih =>
    intro node l h
    by_cases hn : node = first
    · simp only [walkAux, if_pos hn] at h
      left
      exact (Option.some.injEq _ _).mp h.symm ▸ rfl
    · simp only [walkAux, if_neg hn] at h
      cases hf : f node with
      | none => rw [hf] at h; simp at h
      | some nxt =>
        rw [hf] at h
        rcases Option.map_eq_some'.mp h with ⟨l2, hl2, rfl⟩
        right
        rcases ih hl2 with rfl | ⟨hh2, hch, z, hz, hzf⟩
        · have hnf : nxt = first := walkAux_some_nil hl2
          refine ⟨rfl, List.chain'_singleton node, node, rfl, ?_⟩
          rw [hf, hnf]
        · have hl2ne : l2 ≠ [] := by
            intro hcn; rw [hcn] at hh2; simp at hh2
          refine ⟨rfl, ?_, z, ?_, hzf⟩
          · refine List.chain'_cons'.mpr ⟨?_, hch⟩
            intro y hy
            rw [hh2] at hy
            rcases Option.mem_some_iff.mp hy with rfl
            exact hf
          · cases l2 with
            | nil => exact absurd rfl hl2ne
            | cons b t2 => rw [List.getLast?_cons_cons]; exact hz

/-- Every successor step of `dict(sorted(members))` is a residual edge. -/
theorem dictLookup_mem {m : Finset Edge} {s t : ℕ} (h : dictLookup m s = some t) :
    (s, t) ∈ m := by
  unfold dictLookup at h
  rcases Option.map_eq_some'.mp h with ⟨⟨e1, e2⟩, he, het⟩
  have hel := List.mem_of_getLast?_eq_some he
  rw [List.mem_filter] at hel
  have he1 : e1 = s := by simpa using hel.2
  have hem : (e1, e2) ∈ m := by
    have hms := hel.1
    rwa [sortedEdges, Finset.mem_sort] at hms
  have he2 : e2 = t := het
  rw [← he1, ← he2]
  exact hem

/-- C2 counterexample: over the cyclic edge set `{(0,1),(1,0)}` (no
filtering requested) the sort raises `CycleError` with both edges as
members, and the reported sequence is `[0, 1]` — its first and last
elements differ, refuting the claim's `c[0] == c[last]` (the walk stops
just before revisiting the start; closure is only by the wrap-around edge
`(1, 0)`). -/
theorem cycle_report_head_ne_last :
    (topsortRun (applyFilters {(0, 1), (1, 0)} ∅ ∅)).2 = {(0, 1), (1, 0)} ∧
      cycleSeq {(0, 1), (1, 0)} 5 = some [0, 1] ∧ (0 : ℕ) ≠ 1 := by
  refine ⟨by decide, ?_, by decide⟩
  have hse : sortedEdges {(0, 1), (1, 0)} = [(0, 1), (1, 0)] :=
    sortedEdges_eq (by decide) (by decide)
  have hsn : ((({(0, 1), (1, 0)} : Finset Edge).image Prod.fst).sort (· ≤ ·)) = [0, 1] :=
    sortNat_eq (by decide) (by decide)
  have hd0 : dictLookup {(0, 1), (1, 0)} 0 = some 1 := by rw [dictLookup, hse]; rfl
  have hd1 : dictLookup {(0, 1), (1, 0)} 1 = some 0 := by rw [dictLookup, hse]; rfl
  unfold cycleSeq
  rw [hsn]
  simp only [List.head?_cons, Option.some_bind, hd0, walkAux,
    if_neg (by decide : ¬(1 : ℕ) = 0), hd1, if_pos rfl, Option.map_some']
  rfl

/-- C2 amended: exhausting the forward sort over a (filtered) edge set that
contains a cycle raises `CycleError` (the residual members are non-empty),
and whenever the reporter's walk finishes, the reported sequence `c` is a
closed walk in the residual set up to wrap-around: each consecutive pair is
a residual edge, and the pair formed by the last and the first element is a
residual edge (the first element is not repeated at the end, which is the
only deviation from the claim as stated). -/
theorem topsort_cyclic_reports (D : Finset Edge) (s t : Finset ℕ)
    (h : HasCycle (applyFilters D s t)) :
    (topsortRun (applyFilters D s t)).2 ≠ ∅ ∧
      ∀ fuel c, cycleSeq ((topsortRun (applyFilters D s t)).2) fuel = some c →
        c ≠ [] ∧ c.Chain' (fun a b => (a, b) ∈ (topsortRun (applyFilters D s t)).2) ∧
        ∃ z a, c.getLast? = some z ∧ c.head? = some a ∧
          (z, a) ∈ (topsortRun (applyFilters D s t)).2 := by
  have hrescyc : HasCycle (topsortRun (applyFilters D s t)).2 := by
    rw [topsortRun]
    apply sortAux_residual_cycle
    · intro x hx; exact (Finset.mem_filter.mp hx).2
    · exact h
  refine ⟨hasCycle_nonempty hrescyc, ?_⟩
  intro fuel c hc
  unfold cycleSeq at hc
  rcases Option.bind_eq_some.mp hc with ⟨first, hh, hc2⟩
  rcases Option.bind_eq_some.mp hc2 with ⟨n1, hd, hc3⟩
  rcases Option.map_eq_some'.mp hc3 with ⟨l, hw, rfl⟩
  rcases walkAux_spec hw with rfl | ⟨hh2, hch, z, hz, hzf⟩
  · have hnf : n1 = first := walkAux_some_nil hw
    exact ⟨List.cons_ne_nil _ _, List.chain'_singleton first, first, first, rfl, rfl,
      dictLookup_mem (hnf ▸ hd)⟩
  · have hlne : l ≠ [] := by intro hcn; rw [hcn] at hh2; simp at hh2
    refine ⟨List.cons_ne_nil _ _, ?_, z, first, ?_, rfl, dictLookup_mem hzf⟩
    · refine List.chain'_cons'.mpr ⟨?_, hch.imp (fun a b hab => dictLookup_mem hab)⟩
      intro y hy
      rw [hh2] at hy
      rcases Option.mem_some_iff.mp hy with rfl
      exact dictLookup_mem hd
    · cases l with
      | nil => exact absurd rfl hlne
      | cons b t2 => rw [List.getLast?_cons_cons]; exact hz

/-- Witness for the amended C2 at the concrete cyclic graph `{(0,1),(1,0)}`
with no filtering. -/
theorem topsort_cyclic_reports_witness :
    (topsortRun (applyFilters {(0, 1), (1, 0)} ∅ ∅)).2 ≠ ∅ ∧
      ∀ fuel c, cycleSeq ((topsortRun (applyFilters {(0, 1), (1, 0)} ∅ ∅)).2) fuel = some c →
        c ≠ [] ∧
        c.Chain' (fun a b => (a, b) ∈ (topsortRun (applyFilters {(0, 1), (1, 0)} ∅ ∅)).2) ∧
        ∃ z a, c.getLast? = some z ∧ c.head? = some a ∧
          (z, a) ∈ (topsortRun (applyFilters {(0, 1), (1, 0)} ∅ ∅)).2 := by
  have hcyc : HasCycle (applyFilters {(0, 1), (1, 0)} ∅ ∅) := by
    refine ⟨0, [1, 0], by simp, ?_, rfl⟩
    refine List.Chain.cons ?_ (List.Chain.cons ?_ List.Chain.nil)
    · show (0, 1) ∈ applyFilters {(0, 1), (1, 0)} ∅ ∅
      decide
    · show (1, 0) ∈ applyFilters {(0, 1), (1, 0)} ∅ ∅
      decide
  exact topsort_cyclic_reports {(0, 1), (1, 0)} ∅ ∅ hcyc

/-! ## C5: the start filter and the endpoint filter commute -/

/-- An inflationary step function whose additions come from a fixed finite
pool `B` reaches a fixpoint after `B.card + 1` iterations. -/
theorem iterate_fixpoint (f : Finset ℕ → Finset ℕ) (B : Finset ℕ)
    (hinfl : ∀ R, R ⊆ f R) (hbd : ∀ R, f R ⊆ R ∪ B) (s : Finset ℕ) :
    f (f^[B.card + 1] s) = f^[B.card + 1] s := by
  have hsub : ∀ k, f^[k] s ⊆ s ∪ B := by
    intro k
    induction k with
    | zero => exact Finset.subset_union_left
    | succ n ih =>
      rw [Function.iterate_succ_apply']
      intro x hx
      rcases Finset.mem_union.mp (hbd _ hx) with h1 | h2
      · exact ih h1
      · exact Finset.mem_union_right _ h2
  by_cases hstab : ∃ k ≤ B.card, f (f^[k] s) = f^[k] s
  · rcases hstab with ⟨k, hk, hfix⟩
    have hall : ∀ j, f^[k + j] s = f^[k] s := by
      intro j
      induction j with
      | zero => rfl
      | succ n ih =>
        rw [show k + (n + 1) = (k + n) + 1 by omega, Function.iterate_succ_apply', ih, hfix]
    have hstop : f^[B.card + 1] s = f^[k] s := by
      have h2 := hall (B.card + 1 - k)
      rwa [show k + (B.card + 1 - k) = B.card + 1 by omega] at h2
    rw [hstop, hfix]
  · push_neg at hstab
    exfalso
    have hgrow : ∀ k, k ≤ B.card + 1 → s.card + k ≤ (f^[k] s).card := by
      intro k hk
      induction k with
      | zero => simp
      | succ n ih =>
        have hn : n ≤ B.card := by omega
        have hlt : f^[n] s ⊂ f (f^[n] s) :=
          Finset.ssubset_iff_subset_ne.mpr ⟨hinfl _, fun he => hstab n hn he.symm⟩
        have hc := Finset.card_lt_card hlt
        have hc2 : (f^[n + 1] s).card = (f (f^[n] s)).card := by
          rw [Function.iterate_succ_apply']
        have ihn := ih (by omega)
        omega
    have h1 := hgrow (B.card + 1) (le_refl _)
    have h2 : (f^[B.card + 1] s).card ≤ (s ∪ B).card := Finset.card_le_card (hsub _)
    have h3 : (s ∪ B).card ≤ s.card + B.card := Finset.card_union_le s B
    omega

/-- The start set is contained in its forward closure. -/
theorem subset_fwdClosure {E : Finset Edge} {s : Finset ℕ} : s ⊆ fwdClosure E s := by
  unfold fwdClosure
  generalize (snks E).card + 1 = k
  induction k with
  | zero => exact subset_refl s
  | succ n ih =>
    rw [Function.iterate_succ_apply']
    exact ih.trans Finset.subset_union_left

/-- The endpoint set is contained in its backward closure. -/
theorem subset_bwdClosure {E : Finset Edge} {t : Finset ℕ} : t ⊆ bwdClosure E t := by
  unfold bwdClosure
  generalize (srcs E).card + 1 = k
  induction k with
  | zero => exact subset_refl t
  | succ n ih =>
    rw [Function.iterate_succ_apply']
    exact ih.trans Finset.subset_union_left

/-- The forward closure is a fixpoint of its step function. -/
theorem fwdClosure_fix (E : Finset Edge) (s : Finset ℕ) :
    closureStepF E (fwdClosure E s) = fwdClosure E s :=
  iterate_fixpoint (closureStepF E) (snks E) (fun _ => Finset.subset_union_left)
    (fun R => Finset.union_subset_union (subset_refl R)
      (Finset.image_subset_image (Finset.filter_subset _ E))) s

/-- The backward closure is a fixpoint of its step function. -/
theorem bwdClosure_fix (E : Finset Edge) (t : Finset ℕ) :
    closureStepB E (bwdClosure E t) = bwdClosure E t :=
  iterate_fixpoint (closureStepB E) (srcs E) (fun _ => Finset.subset_union_left)
    (fun R => Finset.union_subset_union (subset_refl R)
      (Finset.image_subset_image (Finset.filter_subset _ E))) t

/-- The forward closure is closed under following an edge forwards. -/
theorem fwdClosure_closed {E : Finset Edge} {s : Finset ℕ} {u v : ℕ}
    (hu : u ∈ fwdClosure E s) (huv : (u, v) ∈ E) : v ∈ fwdClosure E s := by
  rw [← fwdClosure_fix E s]
  unfold closureStepF
  refine Finset.mem_union_right _ (Finset.mem_image.mpr ⟨(u, v), ?_, rfl⟩)
  exact Finset.mem_filter.mpr ⟨huv, hu⟩

/-- The backward closure is closed under following an edge backwards. -/
theorem bwdClosure_closed {E : Finset Edge} {t : Finset ℕ} {u v : ℕ}
    (hv : v ∈ bwdClosure E t) (huv : (u, v) ∈ E) : u ∈ bwdClosure E t := by
  rw [← bwdClosure_fix E t]
  unfold closureStepB
  refine Finset.mem_union_right _ (Finset.mem_image.mpr ⟨(u, v), ?_, rfl⟩)
  exact Finset.mem_filter.mpr ⟨huv, hv⟩

/-- Membership in the forward closure is reachability from a start node. -/
theorem mem_fwdClosure {E : Finset Edge} {s : Finset ℕ} {x : ℕ} :
    x ∈ fwdClosure E s ↔ ∃ a ∈ s, Reaches E a x := by
  constructor
  · suffices h : ∀ k y, y ∈ (closureStepF E)^[k] s → ∃ a ∈ s, Reaches E a y from h _ x
    intro k
    induction k with
    | zero => intro y hy; exact ⟨y, hy, Relation.ReflTransGen.refl⟩
    | succ n ih =>
      intro y hy
      rw [Function.iterate_succ_apply'] at hy
      unfold closureStepF at hy
      rcases Finset.mem_union.mp hy with h1 | h2
      · exact ih y h1
      · rcases Finset.mem_image.mp h2 with ⟨e, he, hey⟩
        rcases Finset.mem_filter.mp he with ⟨heE, heR⟩
        rcases ih e.1 heR with ⟨a, ha, har⟩
        refine ⟨a, ha, har.tail ?_⟩
        show (e.1, y) ∈ E
        have hpe : (e.1, y) = e := by rw [← hey]
        rw [hpe]
        exact heE
  · rintro ⟨a, ha, har⟩
    induction har with
    | refl => exact subset_fwdClosure ha
    | @tail b c _ hbc ih => exact fwdClosure_closed ih hbc

/-- Membership in the backward closure is reachability to an endpoint. -/
theorem mem_bwdClosure {E : Finset Edge} {t : Finset ℕ} {x : ℕ} :
    x ∈ bwdClosure E t ↔ ∃ b ∈ t, Reaches E x b := by
  constructor
  · suffices h : ∀ k y, y ∈ (closureStepB E)^[k] t → ∃ b ∈ t, Reaches E y b from h _ x
    intro k
    induction k with
    | zero => intro y hy; exact ⟨y, hy, Relation.ReflTransGen.refl⟩
    | succ n ih =>
      intro y hy
      rw [Function.iterate_succ_apply'] at hy
      unfold closureStepB at hy
      rcases Finset.mem_union.mp hy with h1 | h2
      · exact ih y h1
      · rcases Finset.mem_image.mp h2 with ⟨e, he, hey⟩
        rcases Finset.mem_filter.mp he with ⟨heE, heR⟩
        rcases ih e.2 heR with ⟨b, hb, hbr⟩
        refine ⟨b, hb, Relation.ReflTransGen.head ?_ hbr⟩
        show (y, e.2) ∈ E
        have hpe : (y, e.2) = e := by rw [← hey]
        rw [hpe]
        exact heE
  · rintro ⟨b, hb, hbr⟩
    induction hbr using Relation.ReflTransGen.head_induction_on with
    | refl => exact subset_bwdClosure hb
    | head hxy _ ih => exact bwdClosure_closed ih hxy

/-- Reachability is monotone in the edge set. -/
theorem reaches_mono {g h : Finset Edge} (hsub : g ⊆ h) {a b : ℕ} :
    Reaches g a b → Reaches h a b :=
  Relation.ReflTransGen.mono (fun _ _ hxy => hsub hxy)

/-- Backward-closure membership propagates backwards along any path. -/
theorem bwdClosure_closed_reaches {E : Finset Edge} {t : Finset ℕ} {u v : ℕ}
    (hr : Reaches E u v) (hv : v ∈ bwdClosure E t) : u ∈ bwdClosure E t := by
  induction hr using Relation.ReflTransGen.head_induction_on with
  | refl => exact hv
  | head hxy _ ih => exact bwdClosure_closed ih hxy

/-- A path out of a forward-reachable node survives the start filter: every
node on the path is forward-reachable, so every edge on the path is kept. -/
theorem reaches_in_filterStart {E : Finset Edge} {s : Finset ℕ} {y : ℕ} :
    ∀ {x}, Reaches E x y → x ∈ fwdClosure E s → Reaches (filterStart E s) x y := by
  intro x hr
  induction hr using Relation.ReflTransGen.head_induction_on with
  | refl => intro _; exact Relation.ReflTransGen.refl
  | @head a c hac hcy ih =>
    intro hx
    have hc : c ∈ fwdClosure E s := fwdClosure_closed hx hac
    refine Relation.ReflTransGen.head ?_ (ih hc)
    show (a, c) ∈ filterStart E s
    exact Finset.mem_filter.mpr ⟨hac, hx⟩

/-- A path into a backward-reachable node survives the endpoint filter. -/
theorem reaches_in_filterEnd {E : Finset Edge} {t : Finset ℕ} {y : ℕ}
    (hy : y ∈ bwdClosure E t) : ∀ {x}, Reaches E x y → Reaches (filterEnd E t) x y := by
  intro x hr
  induction hr using Relation.ReflTransGen.head_induction_on with
  | refl => exact Relation.ReflTransGen.refl
  | @head a c hac hcy ih =>
    refine Relation.ReflTransGen.head ?_ ih
    show (a, c) ∈ filterEnd E t
    exact Finset.mem_filter.mpr ⟨hac, bwdClosure_closed_reaches hcy hy⟩

/-- Start filter then endpoint filter keeps exactly the edges whose source is
reachable from a start and whose sink reaches an endpoint (closures over the
unfiltered edge set). -/
theorem mem_filters_fwd_bwd {E : Finset Edge} {s t : Finset ℕ} {e : Edge} :
    e ∈ filterEnd (filterStart E s) t ↔
      e ∈ E ∧ e.1 ∈ fwdClosure E s ∧ e.2 ∈ bwdClosure E t := by
  constructor
  · intro h
    rcases Finset.mem_filter.mp h with ⟨h1, h2⟩
    rcases Finset.mem_filter.mp h1 with ⟨heE, hefwd⟩
    refine ⟨heE, hefwd, ?_⟩
    rcases mem_bwdClosure.mp h2 with ⟨b, hb, hr⟩
    exact mem_bwdClosure.mpr ⟨b, hb, reaches_mono (Finset.filter_subset _ _) hr⟩
  · rintro ⟨heE, h1, h2⟩
    refine Finset.mem_filter.mpr ⟨Finset.mem_filter.mpr ⟨heE, h1⟩, ?_⟩
    rcases mem_bwdClosure.mp h2 with ⟨b, hb, hr⟩
    have he2fwd : e.2 ∈ fwdClosure E s :=
      fwdClosure_closed h1 (by rw [Prod.mk.eta]; exact heE)
    exact mem_bwdClosure.mpr ⟨b, hb, reaches_in_filterStart hr he2fwd⟩

/-- Endpoint filter then start filter keeps exactly the same edges. -/
theorem mem_filters_bwd_fwd {E : Finset Edge} {s t : Finset ℕ} {e : Edge} :
    e ∈ filterStart (filterEnd E t) s ↔
      e ∈ E ∧ e.1 ∈ fwdClosure E s ∧ e.2 ∈ bwdClosure E t := by
  constructor
  · intro h
    rcases Finset.mem_filter.mp h with ⟨h1, h2⟩
    rcases Finset.mem_filter.mp h1 with ⟨heE, hebwd⟩
    refine ⟨heE, ?_, hebwd⟩
    rcases mem_fwdClosure.mp h2 with ⟨a, ha, hr⟩
    exact mem_fwdClosure.mpr ⟨a, ha, reaches_mono (Finset.filter_subset _ _) hr⟩
  · rintro ⟨heE, h1, h2⟩
    refine Finset.mem_filter.mpr ⟨Finset.mem_filter.mpr ⟨heE, h2⟩, ?_⟩
    rcases mem_fwdClosure.mp h1 with ⟨a, ha, hr⟩
    have he1bwd : e.1 ∈ bwdClosure E t :=
      bwdClosure_closed h2 (by rw [Prod.mk.eta]; exact heE)
    exact mem_fwdClosure.mpr ⟨a, ha, reaches_in_filterEnd he1bwd hr⟩

/-- C5: for every edge set and non-empty start and endpoint sets, applying
the start filter then the endpoint filter gives the same edge set as the
opposite order, and the result is exactly the edges lying on some path from
a start node to an endpoint node (source reachable from a start, sink
reaching an endpoint). -/
theorem filters_commute (E : Finset Edge) (s t : Finset ℕ)
    (hs : s.Nonempty) (ht : t.Nonempty) :
    filterEnd (filterStart E s) t = filterStart (filterEnd E t) s ∧
      ∀ e : Edge, e ∈ filterEnd (filterStart E s) t ↔
        e ∈ E ∧ (∃ a ∈ s, Reaches E a e.1) ∧ (∃ b ∈ t, Reaches E e.2 b) := by
  constructor
  · ext e
    rw [mem_filters_fwd_bwd, mem_filters_bwd_fwd]
  · intro e
    rw [mem_filters_fwd_bwd]
    constructor
    · rintro ⟨h1, h2, h3⟩
      exact ⟨h1, mem_fwdClosure.mp h2, mem_bwdClosure.mp h3⟩
    · rintro ⟨h1, h2, h3⟩
      exact ⟨h1, mem_fwdClosure.mpr h2, mem_bwdClosure.mpr h3⟩

/-- Witness for C5 on the doctest graph with start `{0}` and endpoint `{1}`. -/
theorem filters_commute_witness :
    ({0} : Finset ℕ).Nonempty ∧ ({1} : Finset ℕ).Nonempty ∧
      filterEnd (filterStart {(0, 1), (1, 3), (0, 2), (2, 3)} {0}) {1} =
        filterStart (filterEnd {(0, 1), (1, 3), (0, 2), (2, 3)} {1}) {0} :=
  ⟨⟨0, by decide⟩, ⟨1, by decide⟩,
    (filters_commute {(0, 1), (1, 3), (0, 2), (2, 3)} {0} {1}
      ⟨0, by decide⟩ ⟨1, by decide⟩).1⟩

/-! ## C6: forward and reverse sort of a simple chain -/

/-- The sort loop exits immediately on an empty ready set. -/
theorem sortAux_ready_empty : ∀ (fuel : ℕ) (g : Finset Edge), sortAux fuel g ∅ = ([], g) := by
  intro fuel g
  cases fuel with
  | zero => rfl
  | succ n => simp [sortAux]

/-- The reverse sort loop exits immediately on an empty ready set. -/
theorem sortAuxRev_ready_empty :
    ∀ (fuel : ℕ) (g : Finset Edge), sortAuxRev fuel g ∅ = ([], g) := by
  intro fuel g
  cases fuel with
  | zero => rfl
  | succ n => simp [sortAuxRev]

/-- One unfolding of the forward sort loop when the ready set is non-empty. -/
theorem sortAux_succ (fuel : ℕ) (g : Finset Edge) (ready : Finset ℕ) (h : ready ≠ ∅) :
    sortAux (fuel + 1) g ready =
      (ready :: (sortAux fuel (stepFwd g ready).1 (stepFwd g ready).2).1,
        (sortAux fuel (stepFwd g ready).1 (stepFwd g ready).2).2) := by
  simp [sortAux, if_neg h]

/-- One unfolding of the reverse sort loop when the ready set is non-empty. -/
theorem sortAuxRev_succ (fuel : ℕ) (g : Finset Edge) (ready : Finset ℕ) (h : ready ≠ ∅) :
    sortAuxRev (fuel + 1) g ready =
      (ready :: (sortAuxRev fuel (stepRev g ready).1 (stepRev g ready).2).1,
        (sortAuxRev fuel (stepRev g ready).1 (stepRev g ready).2).2) := by
  simp [sortAuxRev, if_neg h]

/-- Sources of a chain segment. -/
theorem mem_srcs_seg {c : ℕ → ℕ} {i k x : ℕ} :
    x ∈ srcs ((Finset.Ico i k).image (fun j => (c j, c (j + 1)))) ↔
      ∃ j, i ≤ j ∧ j < k ∧ c j = x := by
  unfold srcs
  rw [Finset.image_image]
  simp [Finset.mem_Ico, and_assoc, Function.comp]

/-- Sinks of a chain segment. -/
theorem mem_snks_seg {c : ℕ → ℕ} {i k x : ℕ} :
    x ∈ snks ((Finset.Ico i k).image (fun j => (c j, c (j + 1)))) ↔
      ∃ j, i ≤ j ∧ j < k ∧ c (j + 1) = x := by
  unfold snks
  rw [Finset.image_image]
  simp [Finset.mem_Ico, and_assoc, Function.comp]

/-- The forward sort of the chain segment `c i → c (i+1) → ... → c k`, started
with ready set `{c i}`, peels one node per round:
generations `{c i}, {c (i+1)}, ..., {c k}` and empty residual. -/
theorem sortAux_chain_seg (c : ℕ → ℕ) (k : ℕ)
    (hinj : ∀ i ≤ k, ∀ j ≤ k, c i = c j → i = j) :
    ∀ d i fuel, i + d = k → d < fuel →
      sortAux fuel ((Finset.Ico i k).image (fun j => (c j, c (j + 1)))) {c i} =
        ((List.range' i (d + 1)).map (fun j => ({c j} : Finset ℕ)), ∅) := by
  intro d
  induction d with
  | zero =>
    intro i fuel hik hfuel
    have hik2 : i = k := by omega
    subst hik2
    cases fuel with
    | zero => omega
    | succ n =>
      rw [Finset.Ico_self, Finset.image_empty,
        sortAux_succ _ _ _ (Finset.singleton_ne_empty _)]
      have hstep : stepFwd ∅ ({c i} : Finset ℕ) = (∅, ∅) := by
        simp [stepFwd]
      rw [hstep]
      simp [sortAux_ready_empty, List.range']
  | succ d ih =>
    intro i fuel hik hfuel
    have hik1 : i < k := by omega
    cases fuel with
    | zero => omega
    | succ n =>
      have houtg :
          ((Finset.Ico i k).image (fun j => (c j, c (j + 1)))).filter
            (fun e => e.1 ∈ ({c i} : Finset ℕ)) = {(c i, c (i + 1))} := by
        ext e
        simp only [Finset.mem_filter, Finset.mem_image, Finset.mem_Ico, Finset.mem_singleton]
        constructor
        · rintro ⟨⟨j, ⟨hij, hjk⟩, rfl⟩, h1⟩
          have hj : j = i := hinj j (by omega) i (by omega) (by simpa using h1)
          subst hj; rfl
        · rintro rfl
          exact ⟨⟨i, ⟨le_refl i, hik1⟩, rfl⟩, by simp⟩
      have hg2 :
          ((Finset.Ico i k).image (fun j => (c j, c (j + 1)))) \ {(c i, c (i + 1))} =
            (Finset.Ico (i + 1) k).image (fun j => (c j, c (j + 1))) := by
        ext e
        simp only [Finset.mem_sdiff, Finset.mem_image, Finset.mem_Ico, Finset.mem_singleton]
        constructor
        · rintro ⟨⟨j, ⟨hij, hjk⟩, rfl⟩, hne⟩
          refine ⟨j, ⟨?_, hjk⟩, rfl⟩
          have hji : j ≠ i := by
            intro hji; subst hji; exact hne rfl
          omega
        · rintro ⟨j, ⟨hij, hjk⟩, rfl⟩
          refine ⟨⟨j, ⟨by omega, hjk⟩, rfl⟩, ?_⟩
          intro heq
          have hcj : c j = c i := congrArg Prod.fst heq
          have := hinj j (by omega) i (by omega) hcj
          omega
      have hready :
          ((({(c i, c (i + 1))} : Finset Edge)).image Prod.snd).filter
            (fun x => x ∉ snks ((Finset.Ico (i + 1) k).image (fun j => (c j, c (j + 1))))) =
            {c (i + 1)} := by
        rw [Finset.image_singleton]
        have hnotin :
            c (i + 1) ∉ snks ((Finset.Ico (i + 1) k).image (fun j => (c j, c (j + 1)))) := by
          rw [mem_snks_seg]
          rintro ⟨j, hij, hjk, hcj⟩
          have := hinj (j + 1) (by omega) (i + 1) (by omega) hcj
          omega
        rw [Finset.filter_singleton, if_pos hnotin]
      have hstep1 :
          (stepFwd ((Finset.Ico i k).image (fun j => (c j, c (j + 1)))) {c i}).1 =
            (Finset.Ico (i + 1) k).image (fun j => (c j, c (j + 1))) := by
        show ((Finset.Ico i k).image (fun j => (c j, c (j + 1)))) \
            ((Finset.Ico i k).image (fun j => (c j, c (j + 1)))).filter
              (fun e => e.1 ∈ ({c i} : Finset ℕ)) = _
        rw [houtg, hg2]
      have hstep2 :
          (stepFwd ((Finset.Ico i k).image (fun j => (c j, c (j + 1)))) {c i}).2 =
            {c (i + 1)} := by
        show ((((Finset.Ico i k).image (fun j => (c j, c (j + 1)))).filter
              (fun e => e.1 ∈ ({c i} : Finset ℕ))).image Prod.snd).filter
            (fun x => x ∉ snks (((Finset.Ico i k).image (fun j => (c j, c (j + 1)))) \
              ((Finset.Ico i k).image (fun j => (c j, c (j + 1)))).filter
                (fun e => e.1 ∈ ({c i} : Finset ℕ)))) = _
        rw [houtg, hg2, hready]
      rw [sortAux_succ _ _ _ (Finset.singleton_ne_empty _), hstep1, hstep2,
        ih (i + 1) n (by omega) (by omega)]
      simp [List.range'_succ]

/-- The reverse sort of the chain segment `c 0 → ... → c j`, started with
ready set `{c j}`, peels from the top: generations
`{c j}, {c (j-1)}, ..., {c 0}` and empty residual. -/
theorem sortAuxRev_chain_seg (c : ℕ → ℕ) (k : ℕ)
    (hinj : ∀ i ≤ k, ∀ j ≤ k, c i = c j → i = j) :
    ∀ j fuel, j ≤ k → j < fuel →
      sortAuxRev fuel ((Finset.Ico 0 j).image (fun t => (c t, c (t + 1)))) {c j} =
        ((List.range (j + 1)).reverse.map (fun t => ({c t} : Finset ℕ)), ∅) := by
  intro j
  induction j with
  | zero =>
    intro fuel _ hfuel
    cases fuel with
    | zero => omega
    | succ n =>
      rw [Finset.Ico_self, Finset.image_empty,
        sortAuxRev_succ _ _ _ (Finset.singleton_ne_empty _)]
      have hstep : stepRev ∅ ({c 0} : Finset ℕ) = (∅, ∅) := by
        simp [stepRev]
      rw [hstep]
      simp [sortAuxRev_ready_empty, List.range_succ]
  | succ j ih =>
    intro fuel hjk hfuel
    cases fuel with
    | zero => omega
    | succ n =>
      have hinc :
          ((Finset.Ico 0 (j + 1)).image (fun t => (c t, c (t + 1)))).filter
            (fun e => e.2 ∈ ({c (j + 1)} : Finset ℕ)) = {(c j, c (j + 1))} := by
        ext e
        simp only [Finset.mem_filter, Finset.mem_image, Finset.mem_Ico, Finset.mem_singleton]
        constructor
        · rintro ⟨⟨t, ⟨_, htj⟩, rfl⟩, h1⟩
          have ht : t + 1 = j + 1 := hinj (t + 1) (by omega) (j + 1) (by omega) (by simpa using h1)
          have ht2 : t = j := by omega
          subst ht2; rfl
        · rintro rfl
          exact ⟨⟨j, ⟨Nat.zero_le _, by omega⟩, rfl⟩, by simp⟩
      have hg2 :
          ((Finset.Ico 0 (j + 1)).image (fun t => (c t, c (t + 1)))) \ {(c j, c (j + 1))} =
            (Finset.Ico 0 j).image (fun t => (c t, c (t + 1))) := by
        ext e
        simp only [Finset.mem_sdiff, Finset.mem_image, Finset.mem_Ico, Finset.mem_singleton]
        constructor
        · rintro ⟨⟨t, ⟨_, htj⟩, rfl⟩, hne⟩
          refine ⟨t, ⟨Nat.zero_le _, ?_⟩, rfl⟩
          have htj2 : t ≠ j := by
            intro hteq; subst hteq; exact hne rfl
          omega
        · rintro ⟨t, ⟨_, htj⟩, rfl⟩
          refine ⟨⟨t, ⟨Nat.zero_le _, by omega⟩, rfl⟩, ?_⟩
          intro heq
          have hct : c t = c j := congrArg Prod.fst heq
          have := hinj t (by omega) j (by omega) hct
          omega
      have hready :
          ((({(c j, c (j + 1))} : Finset Edge)).image Prod.fst).filter
            (fun x => x ∉ srcs ((Finset.Ico 0 j).image (fun t => (c t, c (t + 1))))) =
            {c j} := by
        rw [Finset.image_singleton]
        have hnotin : c j ∉ srcs ((Finset.Ico 0 j).image (fun t => (c t, c (t + 1)))) := by
          rw [mem_srcs_seg]
          rintro ⟨t, _, htj, hct⟩
          have := hinj t (by omega) j (by omega) hct
          omega
        rw [Finset.filter_singleton, if_pos hnotin]
      have hstep1 :
          (stepRev ((Finset.Ico 0 (j + 1)).image (fun t => (c t, c (t + 1)))) {c (j + 1)}).1 =
            (Finset.Ico 0 j).image (fun t => (c t, c (t + 1))) := by
        show ((Finset.Ico 0 (j + 1)).image (fun t => (c t, c (t + 1)))) \
            ((Finset.Ico 0 (j + 1)).image (fun t => (c t, c (t + 1)))).filter
              (fun e => e.2 ∈ ({c (j + 1)} : Finset ℕ)) = _
        rw [hinc, hg2]
      have hstep2 :
          (stepRev ((Finset.Ico 0 (j + 1)).image (fun t => (c t, c (t + 1)))) {c (j + 1)}).2 =
            {c j} := by
        show ((((Finset.Ico 0 (j + 1)).image (fun t => (c t, c (t + 1)))).filter
              (fun e => e.2 ∈ ({c (j + 1)} : Finset ℕ))).image Prod.fst).filter
            (fun x => x ∉ srcs (((Finset.Ico 0 (j + 1)).image (fun t => (c t, c (t + 1)))) \
              ((Finset.Ico 0 (j + 1)).image (fun t => (c t, c (t + 1)))).filter
                (fun e => e.2 ∈ ({c (j + 1)} : Finset ℕ)))) = _
        rw [hinc, hg2, hready]
      rw [sortAuxRev_succ _ _ _ (Finset.singleton_ne_empty _), hstep1, hstep2,
        ih n (by omega) (by omega)]
      simp [List.range_succ]

/-- Complete forward sort of the chain `c 0 → ... → c k` (at least one edge):
one singleton generation per node, in ascending order. -/
theorem topsortRun_chain (c : ℕ → ℕ) (k : ℕ)
    (hinj : ∀ i ≤ k, ∀ j ≤ k, c i = c j → i = j) (hk : 1 ≤ k) :
    topsortRun (chainE c k) = ((List.range (k + 1)).map (fun j => ({c j} : Finset ℕ)), ∅) := by
  have hch : chainE c k = (Finset.Ico 0 k).image (fun j => (c j, c (j + 1))) := by
    unfold chainE; rw [Finset.range_eq_Ico]
  have hcard : (chainE c k).card = k := by
    unfold chainE
    rw [Finset.card_image_of_injOn, Finset.card_range]
    intro a ha b hb hab
    rw [Finset.mem_coe, Finset.mem_range] at ha hb
    exact hinj a (by omega) b (by omega) (congrArg Prod.fst hab)
  have hinit : initialReady (chainE c k) = {c 0} := by
    ext x
    unfold initialReady
    rw [hch, Finset.mem_filter, mem_srcs_seg, mem_snks_seg, Finset.mem_singleton]
    constructor
    · rintro ⟨⟨j, h0j, hjk, rfl⟩, hns⟩
      cases j with
      | zero => rfl
      | succ j2 =>
        exfalso
        exact hns ⟨j2, Nat.zero_le _, by omega, rfl⟩
    · rintro rfl
      refine ⟨⟨0, le_refl 0, by omega, rfl⟩, ?_⟩
      rintro ⟨j, h0j, hjk, hcj⟩
      have := hinj (j + 1) (by omega) 0 (by omega) hcj
      omega
  rw [topsortRun, hcard, hinit, hch,
    sortAux_chain_seg c k hinj k 0 (k + 1) (by omega) (by omega), List.range_eq_range']

/-- Complete reverse sort of the chain `c 0 → ... → c k` (at least one edge):
one singleton generation per node, in descending order. -/
theorem revsortRun_chain (c : ℕ → ℕ) (k : ℕ)
    (hinj : ∀ i ≤ k, ∀ j ≤ k, c i = c j → i = j) (hk : 1 ≤ k) :
    revsortRun (chainE c k) =
      ((List.range (k + 1)).reverse.map (fun j => ({c j} : Finset ℕ)), ∅) := by
  have hch : chainE c k = (Finset.Ico 0 k).image (fun j => (c j, c (j + 1))) := by
    unfold chainE; rw [Finset.range_eq_Ico]
  have hcard : (chainE c k).card = k := by
    unfold chainE
    rw [Finset.card_image_of_injOn, Finset.card_range]
    intro a ha b hb hab
    rw [Finset.mem_coe, Finset.mem_range] at ha hb
    exact hinj a (by omega) b (by omega) (congrArg Prod.fst hab)
  have hinit : initialReadyRev (chainE c k) = {c k} := by
    ext x
    unfold initialReadyRev
    rw [hch, Finset.mem_filter, mem_snks_seg, mem_srcs_seg, Finset.mem_singleton]
    constructor
    · rintro ⟨⟨j, h0j, hjk, rfl⟩, hns⟩
      by_cases hjk1 : j + 1 = k
      · rw [hjk1]
      · exact absurd ⟨j + 1, Nat.zero_le _, by omega, rfl⟩ hns
    · rintro rfl
      refine ⟨⟨k - 1, Nat.zero_le _, by omega, by rw [show k - 1 + 1 = k by omega]⟩, ?_⟩
      rintro ⟨j, h0j, hjk, hcj⟩
      have := hinj j (by omega) k (by omega) hcj
      omega
  rw [revsortRun, hcard, hinit, hch,
    sortAuxRev_chain_seg c k hinj k (k + 1) (le_refl k) (by omega)]

/-- C6: for every simple chain `(c 0, c 1), ..., (c (k-1), c k)` over distinct
nodes, the reverse sort and the forward sort partition the nodes into the
same family of generation sets (the singletons `{c 0}, ..., {c k}`), ignoring
the order in which the generations are yielded (the two lists of generations
are permutations of each other). -/
theorem chain_fwd_rev_same_generations (c : ℕ → ℕ) (k : ℕ)
    (hinj : ∀ i ≤ k, ∀ j ≤ k, c i = c j → i = j) :
    List.Perm (topsortRun (chainE c k)).1 (revsortRun (chainE c k)).1 := by
  rcases Nat.eq_zero_or_pos k with rfl | hk
  · have h1 : chainE c 0 = ∅ := by unfold chainE; simp
    rw [h1]
    have h2 : topsortRun (∅ : Finset Edge) = ([], ∅) := by decide
    have h3 : revsortRun (∅ : Finset Edge) = ([], ∅) := by decide
    rw [h2, h3]
  · rw [topsortRun_chain c k hinj hk, revsortRun_chain c k hinj hk, List.map_reverse]
    exact (List.reverse_perm _).symm

/-- Witness for C6 on the chain `0 → 1 → 2`. -/
theorem chain_fwd_rev_same_generations_witness :
    (∀ i ≤ 2, ∀ j ≤ 2, (fun n : ℕ => n) i = (fun n : ℕ => n) j → i = j) ∧
      List.Perm (topsortRun (chainE (fun n : ℕ => n) 2)).1
        (revsortRun (chainE (fun n : ℕ => n) 2)).1 :=
  ⟨fun i _ j _ h => h, chain_fwd_rev_same_generations (fun n : ℕ => n) 2 (fun i _ j _ h => h)⟩

/-! ## C1: the forward sort of an acyclic graph -/

/-- The chosen predecessor step really is an edge. -/
theorem predNode_edge {g : Finset Edge} {s : ℕ} (hs : s ∈ snks g) :
    (predNode g s, s) ∈ g := by
  rcases Finset.mem_image.mp hs with ⟨e, he, hes⟩
  have hne : ((g.filter (fun e => e.2 = s)).image Prod.fst).Nonempty :=
    ⟨e.1, Finset.mem_image.mpr ⟨e, Finset.mem_filter.mpr ⟨he, hes⟩, rfl⟩⟩
  unfold predNode
  rw [dif_pos hne]
  have hmem := Finset.min'_mem _ hne
  rcases Finset.mem_image.mp hmem with ⟨e2, he2, he2f⟩
  rcases Finset.mem_filter.mp he2 with ⟨he2g, he2s⟩
  have hpair : (((g.filter (fun e => e.2 = s)).image Prod.fst).min' hne, s) = e2 := by
    rw [← he2f, ← he2s]
  rw [hpair]
  exact he2g

/-- Iterating the predecessor step stays among the sources, provided every
source is also a sink. -/
theorem iter_pred_mem {g : Finset Edge} (hss : ∀ s ∈ srcs g, s ∈ snks g) {x : ℕ}
    (hx : x ∈ srcs g) : ∀ n, (predNode g)^[n] x ∈ srcs g := by
  intro n
  induction n with
  | zero => exact hx
  | succ m ih =>
    rw [Function.iterate_succ_apply']
    exact Finset.mem_image.mpr ⟨_, predNode_edge (hss _ ih), rfl⟩

/-- Each predecessor iteration step is an edge of the graph. -/
theorem iter_pred_edge {g : Finset Edge} (hss : ∀ s ∈ srcs g, s ∈ snks g) {x : ℕ}
    (hx : x ∈ srcs g) : ∀ n, ((predNode g)^[n + 1] x, (predNode g)^[n] x) ∈ g := by
  intro n
  rw [Function.iterate_succ_apply']
  exact predNode_edge (hss _ (iter_pred_mem hss hx n))

/-- A backward walk of positive length is non-empty. -/
theorem descList_ne_nil {p : ℕ → ℕ} {x d : ℕ} (hd : 0 < d) : descList p x d ≠ [] := by
  cases d with
  | zero => omega
  | succ m => simp [descList]

/-- A backward walk ends at its base point. -/
theorem descList_getLast {p : ℕ → ℕ} {x : ℕ} :
    ∀ d, (descList p x (d + 1)).getLast? = some x := by
  intro d
  induction d with
  | zero => simp [descList]
  | succ m ih =>
    have hdl : descList p x (m + 1) = p^[m] x :: descList p x m := rfl
    show (p^[m + 1] x :: descList p x (m + 1)).getLast? = some x
    rw [hdl, List.getLast?_cons_cons, ← hdl]
    exact ih

/-- The backward walk from `p^[d] x` down to `x` is a chain of edges. -/
theorem descList_chain {g : Finset Edge} (hss : ∀ s ∈ srcs g, s ∈ snks g) {x : ℕ}
    (hx : x ∈ srcs g) :
    ∀ d, List.Chain (edgeRel g) ((predNode g)^[d] x) (descList (predNode g) x d) := by
  intro d
  induction d with
  | zero => exact List.Chain.nil
  | succ m ih =>
    show List.Chain (edgeRel g) ((predNode g)^[m + 1] x)
      ((predNode g)^[m] x :: descList (predNode g) x m)
    exact List.Chain.cons (iter_pred_edge hss hx m) ih

/-- A non-empty graph in which every source is also a sink has a cycle:
iterate the predecessor step from any source, the finitely many sources must
repeat, and the stretch between two equal iterates is a closed walk. -/
theorem hasCycle_of_srcs_subset_snks {g : Finset Edge} (hne : g.Nonempty)
    (hss : ∀ s ∈ srcs g, s ∈ snks g) : HasCycle g := by
  rcases hne with ⟨e0, he0⟩
  have hx0 : e0.1 ∈ srcs g := Finset.mem_image.mpr ⟨e0, he0, rfl⟩
  have key : ∀ a b : ℕ, a < b →
      (predNode g)^[a] e0.1 = (predNode g)^[b] e0.1 → HasCycle g := by
    intro a b hab heq
    have hxs : (predNode g)^[a] e0.1 ∈ srcs g := iter_pred_mem hss hx0 a
    have hd : 0 < b - a := by omega
    have hpx : (predNode g)^[b - a] ((predNode g)^[a] e0.1) = (predNode g)^[a] e0.1 := by
      rw [← Function.iterate_add_apply, show b - a + a = b by omega]
      exact heq.symm
    refine ⟨(predNode g)^[a] e0.1, descList (predNode g) ((predNode g)^[a] e0.1) (b - a),
      descList_ne_nil hd, ?_, ?_⟩
    · have hc := descList_chain hss hxs (b - a)
      rwa [hpx] at hc
    · obtain ⟨d2, hd2⟩ : ∃ d2, b - a = d2 + 1 := ⟨b - a - 1, by omega⟩
      rw [hd2]
      exact descList_getLast d2
  have hc1 : (srcs g).card < (Finset.univ : Finset (Fin ((srcs g).card + 1))).card := by
    rw [Finset.card_univ, Fintype.card_fin]
    omega
  have hmaps : ∀ i ∈ (Finset.univ : Finset (Fin ((srcs g).card + 1))),
      (fun i : Fin ((srcs g).card + 1) => (predNode g)^[(i : ℕ)] e0.1) i ∈ srcs g :=
    fun i _ => iter_pred_mem hss hx0 i
  obtain ⟨i, _, j, _, hij, hfij⟩ := Finset.exists_ne_map_eq_of_card_lt_of_maps_to hc1 hmaps
  have hvne : (i : ℕ) ≠ (j : ℕ) := fun h => hij (Fin.ext h)
  rcases Nat.lt_or_ge (i : ℕ) (j : ℕ) with hlt | hge
  · exact key i j hlt hfij
  · exact key j i (by omega) hfij.symm

/-- A ranking function whose value strictly increases along every edge rules
out cycles. -/
theorem not_hasCycle_of_rank {g : Finset Edge} (f : ℕ → ℕ)
    (hf : ∀ e ∈ g, f e.1 < f e.2) : ¬HasCycle g := by
  rintro ⟨a, l, hne, hch, hl⟩
  have key : ∀ (b : ℕ) (t : List ℕ), List.Chain (edgeRel g) b t → ∀ x ∈ t, f b < f x := by
    intro b t
    induction t generalizing b with
    | nil => intro _ x hx; simp at hx
    | cons c rest ih =>
      intro hch2 x hx
      rcases List.chain_cons.mp hch2 with ⟨hbc, hcr⟩
      rcases List.mem_cons.mp hx with rfl | hx2
      · exact hf (b, x) hbc
      · exact lt_trans (hf (b, c) hbc) (ih c hcr x hx2)
  exact lt_irrefl (f a) (key a l hch a (List.mem_of_getLast?_eq_some hl))

/-- The generation index of a member of the head generation. -/
theorem genIdx_cons_of_mem {s : Finset ℕ} {gens : List (Finset ℕ)} {x : ℕ} (hx : x ∈ s) :
    genIdx (s :: gens) x = 0 := by
  simp [genIdx, List.findIdx_cons, hx]

/-- The generation index of a node not in the head generation. -/
theorem genIdx_cons_of_not_mem {s : Finset ℕ} {gens : List (Finset ℕ)} {x : ℕ} (hx : x ∉ s) :
    genIdx (s :: gens) x = genIdx gens x + 1 := by
  simp [genIdx, List.findIdx_cons, hx]

/-- A node appearing in some generation has its index inside the list. -/
theorem genIdx_lt_length {gens : List (Finset ℕ)} {x : ℕ}
    (h : ∃ s ∈ gens, x ∈ s) : genIdx gens x < gens.length := by
  induction gens with
  | nil => simp at h
  | cons s rest ih =>
    by_cases hx : x ∈ s
    · rw [genIdx_cons_of_mem hx]
      simp
    · rw [genIdx_cons_of_not_mem hx]
      rcases h with ⟨t, ht, hxt⟩
      rcases List.mem_cons.mp ht with rfl | ht2
      · exact absurd hxt hx
      · have := ih ⟨t, ht2, hxt⟩
        simp only [List.length_cons]
        omega

/-- First component of one unfolding of the sort loop. -/
theorem sortAux_succ_fst (fuel : ℕ) (g : Finset Edge) (ready : Finset ℕ) (h : ready ≠ ∅) :
    (sortAux (fuel + 1) g ready).1 =
      ready :: (sortAux fuel (stepFwd g ready).1 (stepFwd g ready).2).1 := by
  rw [sortAux_succ _ _ _ h]

/-- Second component of one unfolding of the sort loop. -/
theorem sortAux_succ_snd (fuel : ℕ) (g : Finset Edge) (ready : Finset ℕ) (h : ready ≠ ∅) :
    (sortAux (fuel + 1) g ready).2 =
      (sortAux fuel (stepFwd g ready).1 (stepFwd g ready).2).2 := by
  rw [sortAux_succ _ _ _ h]

/-- Main invariant lemma for the forward sort over an acyclic graph.  The
state invariants are: every source with no incoming edge is ready, and ready
nodes have no incoming edge.  Then the loop consumes the whole graph, the
generations cover exactly the ready nodes plus the nodes of the graph, the
generations are pairwise disjoint, and every edge goes from an earlier
generation to a strictly later one. -/
theorem sortAux_acyclic_spec :
    ∀ (fuel : ℕ) (g : Finset Edge) (ready : Finset ℕ),
      g.card < fuel →
      (∀ s ∈ srcs g, s ∉ snks g → s ∈ ready) →
      (∀ x ∈ ready, x ∉ snks g) →
      ¬HasCycle g →
      (sortAux fuel g ready).2 = ∅ ∧
      (∀ x, (∃ s ∈ (sortAux fuel g ready).1, x ∈ s) ↔
        (x ∈ ready ∨ x ∈ srcs g ∨ x ∈ snks g)) ∧
      (sortAux fuel g ready).1.Pairwise (fun s t => ∀ x, x ∈ s → x ∉ t) ∧
      (∀ a b, (a, b) ∈ g →
        genIdx (sortAux fuel g ready).1 a < genIdx (sortAux fuel g ready).1 b ∧
        genIdx (sortAux fuel g ready).1 b < (sortAux fuel g ready).1.length) := by
  intro fuel
  induction fuel with
  | zero => intro g ready hf _ _ _; omega
  | succ n ih =>
    intro g ready hf hinv1 hinv2 hacyc
    by_cases hr : ready = ∅
    · have hge : g = ∅ := by
        by_contra hne
        apply hacyc
        apply hasCycle_of_srcs_subset_snks (Finset.nonempty_iff_ne_empty.mpr hne)
        intro s hs
        by_contra hsn
        have hmem := hinv1 s hs hsn
        rw [hr] at hmem
        exact absurd hmem (Finset.not_mem_empty s)
      subst hge
      rw [hr, sortAux_ready_empty]
      refine ⟨rfl, ?_, ?_, ?_⟩
      · intro x
        simp [srcs, snks]
      · simp
      · intro a b hab
        exact absurd hab (Finset.not_mem_empty _)
    · by_cases hge : g = ∅
      · subst hge
        have hstep1 : (stepFwd ∅ ready).1 = ∅ := by simp [stepFwd]
        have hstep2 : (stepFwd ∅ ready).2 = ∅ := by simp [stepFwd]
        have hfst : (sortAux (n + 1) ∅ ready).1 = [ready] := by
          rw [sortAux_succ_fst _ _ _ hr, hstep1, hstep2, sortAux_ready_empty]
        have hsnd : (sortAux (n + 1) ∅ ready).2 = ∅ := by
          rw [sortAux_succ_snd _ _ _ hr, hstep1, hstep2, sortAux_ready_empty]
        rw [hfst, hsnd]
        refine ⟨rfl, ?_, ?_, ?_⟩
        · intro x
          simp [srcs, snks]
        · simp
        · intro a b hab
          exact absurd hab (Finset.not_mem_empty _)
      · have hgne : g.Nonempty := Finset.nonempty_iff_ne_empty.mpr hge
        have ho : (g.filter (fun e => e.1 ∈ ready)).Nonempty := by
          by_contra hoe
          rw [Finset.not_nonempty_iff_eq_empty] at hoe
          apply hacyc
          apply hasCycle_of_srcs_subset_snks hgne
          intro s hs
          by_contra hsn
          have hsr := hinv1 s hs hsn
          rcases Finset.mem_image.mp hs with ⟨e, he, hes⟩
          have hmem : e ∈ g.filter (fun e => e.1 ∈ ready) :=
            Finset.mem_filter.mpr ⟨he, by rw [hes]; exact hsr⟩
          rw [hoe] at hmem
          exact absurd hmem (Finset.not_mem_empty e)
        have hg2 : (stepFwd g ready).1 = g \ g.filter (fun e => e.1 ∈ ready) := rfl
        have hr2 : (stepFwd g ready).2 =
            ((g.filter (fun e => e.1 ∈ ready)).image Prod.snd).filter
              (fun x => x ∉ snks (g \ g.filter (fun e => e.1 ∈ ready))) := rfl
        have hcard : ((stepFwd g ready).1).card < g.card := by
          rw [hg2]
          exact Finset.card_lt_card (Finset.sdiff_ssubset (Finset.filter_subset _ g) ho)
        have hsub21 : (stepFwd g ready).1 ⊆ g := by
          rw [hg2]; exact Finset.sdiff_subset
        have hsrc2 : srcs (stepFwd g ready).1 ⊆ srcs g := Finset.image_subset_image hsub21
        have hsnk2 : snks (stepFwd g ready).1 ⊆ snks g := Finset.image_subset_image hsub21
        have hr2sub : (stepFwd g ready).2 ⊆ snks g := by
          rw [hr2]
          intro x hx
          rcases Finset.mem_image.mp (Finset.mem_filter.mp hx).1 with ⟨e, he, hex⟩
          exact Finset.mem_image.mpr ⟨e, (Finset.mem_filter.mp he).1, hex⟩
        have hinv1' : ∀ s ∈ srcs (stepFwd g ready).1, s ∉ snks (stepFwd g ready).1 →
            s ∈ (stepFwd g ready).2 := by
          intro s hs hsn
          by_cases hsg : s ∈ snks g
          · rcases Finset.mem_image.mp hsg with ⟨e, he, hes⟩
            have hrem : e ∈ g.filter (fun e => e.1 ∈ ready) := by
              by_contra hkeep
              have hmem : e ∈ (stepFwd g ready).1 := by
                rw [hg2]; exact Finset.mem_sdiff.mpr ⟨he, hkeep⟩
              exact hsn (Finset.mem_image.mpr ⟨e, hmem, hes⟩)
            rw [hr2]
            exact Finset.mem_filter.mpr ⟨Finset.mem_image.mpr ⟨e, hrem, hes⟩, hsn⟩
          · exfalso
            have hsr := hinv1 s (hsrc2 hs) hsg
            rcases Finset.mem_image.mp hs with ⟨e, he2, hes⟩
            rw [hg2] at he2
            rcases Finset.mem_sdiff.mp he2 with ⟨heg, hkeep⟩
            exact hkeep (Finset.mem_filter.mpr ⟨heg, by rw [hes]; exact hsr⟩)
        have hinv2' : ∀ x ∈ (stepFwd g ready).2, x ∉ snks (stepFwd g ready).1 := by
          intro x hx
          rw [hr2] at hx
          exact (Finset.mem_filter.mp hx).2
        have hacyc' : ¬HasCycle (stepFwd g ready).1 :=
          fun hc => hacyc (hasCycle_mono hsub21 hc)
        obtain ⟨ihres, ihcov, ihpw, ihord⟩ :=
          ih (stepFwd g ready).1 (stepFwd g ready).2 (by omega) hinv1' hinv2' hacyc'
        have hready_next : ∀ x ∈ ready,
            ¬(x ∈ (stepFwd g ready).2 ∨ x ∈ srcs (stepFwd g ready).1 ∨
              x ∈ snks (stepFwd g ready).1) := by
          intro x hx hmem
          rcases hmem with h1 | h2 | h3
          · exact hinv2 x hx (hr2sub h1)
          · rcases Finset.mem_image.mp h2 with ⟨e, he, hex⟩
            rw [hg2] at he
            rcases Finset.mem_sdiff.mp he with ⟨heg, hkeep⟩
            exact hkeep (Finset.mem_filter.mpr ⟨heg, by rw [hex]; exact hx⟩)
          · exact hinv2 x hx (hsnk2 h3)
        refine ⟨?_, ?_, ?_, ?_⟩
        · rw [sortAux_succ_snd _ _ _ hr]
          exact ihres
        · intro x
          rw [sortAux_succ_fst _ _ _ hr]
          constructor
          · rintro ⟨s, hsmem, hxs⟩
            rcases List.mem_cons.mp hsmem with rfl | hs2
            · exact Or.inl hxs
            · rcases (ihcov x).mp ⟨s, hs2, hxs⟩ with h1 | h2 | h3
              · exact Or.inr (Or.inr (hr2sub h1))
              · exact Or.inr (Or.inl (hsrc2 h2))
              · exact Or.inr (Or.inr (hsnk2 h3))
          · intro hx
            rcases hx with h1 | h2 | h3
            · exact ⟨ready, List.mem_cons_self _ _, h1⟩
            · rcases Finset.mem_image.mp h2 with ⟨e, he, hex⟩
              by_cases hxr : x ∈ ready
              · exact ⟨ready, List.mem_cons_self _ _, hxr⟩
              · have he2 : e ∈ (stepFwd g ready).1 := by
                  rw [hg2]
                  refine Finset.mem_sdiff.mpr ⟨he, ?_⟩
                  intro hmem
                  exact hxr (by rw [← hex]; exact (Finset.mem_filter.mp hmem).2)
                have hx2 : x ∈ srcs (stepFwd g ready).1 := Finset.mem_image.mpr ⟨e, he2, hex⟩
                rcases (ihcov x).mpr (Or.inr (Or.inl hx2)) with ⟨s, hs, hxs⟩
                exact ⟨s, List.mem_cons_of_mem _ hs, hxs⟩
            · rcases Finset.mem_image.mp h3 with ⟨e, he, hex⟩
              by_cases he2 : e ∈ (stepFwd g ready).1
              · have hx2 : x ∈ snks (stepFwd g ready).1 := Finset.mem_image.mpr ⟨e, he2, hex⟩
                rcases (ihcov x).mpr (Or.inr (Or.inr hx2)) with ⟨s, hs, hxs⟩
                exact ⟨s, List.mem_cons_of_mem _ hs, hxs⟩
              · have herem : e ∈ g.filter (fun e => e.1 ∈ ready) := by
                  by_contra hk
                  exact he2 (by rw [hg2]; exact Finset.mem_sdiff.mpr ⟨he, hk⟩)
                by_cases hxs2 : x ∈ snks (stepFwd g ready).1
                · rcases (ihcov x).mpr (Or.inr (Or.inr hxs2)) with ⟨s, hs, hxs⟩
                  exact ⟨s, List.mem_cons_of_mem _ hs, hxs⟩
                · have hxready2 : x ∈ (stepFwd g ready).2 := by
                    rw [hr2]
                    exact Finset.mem_filter.mpr ⟨Finset.mem_image.mpr ⟨e, herem, hex⟩, hxs2⟩
                  rcases (ihcov x).mpr (Or.inl hxready2) with ⟨s, hs, hxs⟩
                  exact ⟨s, List.mem_cons_of_mem _ hs, hxs⟩
        · rw [sortAux_succ_fst _ _ _ hr, List.pairwise_cons]
          refine ⟨?_, ihpw⟩
          intro t ht x hx hxt
          exact hready_next x hx ((ihcov x).mp ⟨t, ht, hxt⟩)
        · intro a b hab
          rw [sortAux_succ_fst _ _ _ hr]
          have hbsnk : b ∈ snks g := Finset.mem_image.mpr ⟨(a, b), hab, rfl⟩
          have hbready : b ∉ ready := fun hbr => hinv2 b hbr hbsnk
          rw [genIdx_cons_of_not_mem hbready]
          by_cases har : a ∈ ready
          · rw [genIdx_cons_of_mem har]
            have herem : (a, b) ∈ g.filter (fun e => e.1 ∈ ready) :=
              Finset.mem_filter.mpr ⟨hab, har⟩
            have hbcov : ∃ s ∈ (sortAux n (stepFwd g ready).1 (stepFwd g ready).2).1, b ∈ s := by
              apply (ihcov b).mpr
              by_cases hbs : b ∈ snks (stepFwd g ready).1
              · exact Or.inr (Or.inr hbs)
              · refine Or.inl ?_
                rw [hr2]
                exact Finset.mem_filter.mpr ⟨Finset.mem_image.mpr ⟨(a, b), herem, rfl⟩, hbs⟩
            have hlen := genIdx_lt_length hbcov
            refine ⟨by omega, ?_⟩
            simp only [List.length_cons]
            omega
          · have hasrc2 : (a, b) ∈ (stepFwd g ready).1 := by
              rw [hg2]
              refine Finset.mem_sdiff.mpr ⟨hab, ?_⟩
              intro hmem
              exact har (Finset.mem_filter.mp hmem).2
            rcases ihord a b hasrc2 with ⟨hord1, hord2⟩
            rw [genIdx_cons_of_not_mem har]
            refine ⟨by omega, ?_⟩
            simp only [List.length_cons]
            omega

/-- C1: iterating the forward sort of an acyclic edge set yields generations
whose concatenation contains every node (source or sink of some edge)
exactly once — the generations cover all nodes and are pairwise disjoint,
each generation being a set — the sort completes with an empty residual (no
`CycleError`), and for every edge `(a, b)` the generation index of `a` is
strictly below that of `b`. -/
theorem topsort_acyclic_correct (E : Finset Edge) (hacyc : ¬HasCycle E) :
    (topsortRun E).2 = ∅ ∧
      (∀ x, (∃ s ∈ (topsortRun E).1, x ∈ s) ↔ x ∈ nodesOf E) ∧
      (topsortRun E).1.Pairwise (fun s t => ∀ x, x ∈ s → x ∉ t) ∧
      ∀ a b, (a, b) ∈ E → genIdx (topsortRun E).1 a < genIdx (topsortRun E).1 b := by
  obtain ⟨h1, h2, h3, h4⟩ := sortAux_acyclic_spec (E.card + 1) E (initialReady E) (by omega)
    (fun s hs hns => Finset.mem_filter.mpr ⟨hs, hns⟩)
    (fun x hx => (Finset.mem_filter.mp hx).2)
    hacyc
  refine ⟨h1, ?_, h3, ?_⟩
  · intro x
    constructor
    · intro hx
      rcases (h2 x).mp hx with hrd | hs | hsk
      · exact Finset.mem_union_left _ ((Finset.filter_subset _ _) hrd)
      · exact Finset.mem_union_left _ hs
      · exact Finset.mem_union_right _ hsk
    · intro hx
      rcases Finset.mem_union.mp hx with hs | hsk
      · exact (h2 x).mpr (Or.inr (Or.inl hs))
      · exact (h2 x).mpr (Or.inr (Or.inr hsk))
  · intro a b hab
    exact (h4 a b hab).1

/-- Witness for C1 on the acyclic doctest graph
`{(0,1), (1,3), (0,2), (2,3)}` (a drawn as 0, b as 1, c as 2, d as 3);
acyclicity is discharged with an explicit rank function. -/
theorem topsort_acyclic_correct_witness :
    (topsortRun {(0, 1), (1, 3), (0, 2), (2, 3)}).2 = ∅ ∧
      (∀ x, (∃ s ∈ (topsortRun {(0, 1), (1, 3), (0, 2), (2, 3)}).1, x ∈ s) ↔
        x ∈ nodesOf {(0, 1), (1, 3), (0, 2), (2, 3)}) ∧
      (topsortRun {(0, 1), (1, 3), (0, 2), (2, 3)}).1.Pairwise
        (fun s t => ∀ x, x ∈ s → x ∉ t) ∧
      ∀ a b, (a, b) ∈ ({(0, 1), (1, 3), (0, 2), (2, 3)} : Finset Edge) →
        genIdx (topsortRun {(0, 1), (1, 3), (0, 2), (2, 3)}).1 a <
          genIdx (topsortRun {(0, 1), (1, 3), (0, 2), (2, 3)}).1 b :=
  topsort_acyclic_correct {(0, 1), (1, 3), (0, 2), (2, 3)}
    (not_hasCycle_of_rank (fun x => if x = 3 then 2 else if x = 0 then 0 else 1) (by decide))
